import Mathlib

/-!
Shallow embedding of `src/Data_extract.py`, the parallel shard
extraction-and-merge pipeline, together with proofs settling the frozen
claims about it.

Modelling conventions:
* Decoded text and file paths are `List Char` (Python `str`).
* The per-run scratch directory created by `tempfile.TemporaryDirectory`
  is modelled as `Scratch`, a map from relative path to file content;
  it starts empty (fresh directory) and is dropped wholesale at the end
  of `process_files_in_parallel` (the `with`-block teardown).
* Decompression of one shard is an oracle `ShardData`: either the full
  decoded text (`ok`), an exception raised when opening the archive
  before the scratch file is created (`errAtOpen`), or an exception
  raised mid-stream after some chunks were already written (`errMid`).
* `os.getpid()` and the `random` module are oracles: a tape
  `Nat → Nat × Nat` supplies each task's `(pid, raw random)` pair, and
  `random.randint`/`random.sample` are modelled as deterministic
  functions of such raw values.
* `concurrent.futures.ProcessPoolExecutor.map` yields results in
  submission order (Python semantics), and the workers write to
  pairwise distinct scratch paths, so the worker phase is embedded as a
  fold over the task list in submission order.
-/

namespace DataExtract

/-- File paths, as Python strings. -/
abbrev Path := List Char

/-- Contents of the per-run temporary directory: path ↦ file content. -/
def Scratch := Path → Option (List Char)

/-- The fresh, empty temporary directory. -/
def Scratch.empty : Scratch := fun _ => none

/-- Writing (creating or overwriting) one file in the scratch directory. -/
def Scratch.set (sc : Scratch) (p : Path) (c : List Char) : Scratch :=
  fun q => if q = p then some c else sc q

@[simp] theorem Scratch.set_self (sc : Scratch) (p : Path) (c : List Char) :
    sc.set p c p = some c := by
  simp [Scratch.set]

theorem Scratch.set_other (sc : Scratch) (p q : Path) (c : List Char)
    (h : q ≠ p) : sc.set p c q = sc q := by
  simp [Scratch.set, h]

/-- Decimal digit character, as produced by Python string formatting. -/
def digitChar (n : Nat) : Char := Char.ofNat (48 + n)

/-- Fuelled most-significant-digit-first decimal rendering. -/
def natDigitsAux : Nat → Nat → List Char
  | 0, _ => []
  | fuel + 1, n =>
    if n < 10 then [digitChar n]
    else natDigitsAux fuel (n / 10) ++ [digitChar (n % 10)]

/-- Decimal rendering of a natural number, modelling Python `str(n)`
    inside an f-string. -/
def natStr (n : Nat) : List Char := natDigitsAux (n + 1) n

theorem mem_natDigitsAux {fuel n : Nat} {c : Char}
    (h : c ∈ natDigitsAux fuel n) : ∃ m, m < 10 ∧ c = digitChar m := by
  induction fuel generalizing n with
  | zero => simp [natDigitsAux] at h
  | succ fuel ih =>
    by_cases hn : n < 10
    · simp [natDigitsAux, hn] at h
      exact ⟨n, hn, h⟩
    · simp [natDigitsAux, hn, List.mem_append] at h
      rcases h with h | h
      · exact ih h
      · exact ⟨n % 10, Nat.mod_lt _ (by omega), h⟩

theorem digitChar_ne_underscore : ∀ m, m < 10 → digitChar m ≠ '_' := by
  decide

/-- Decimal renderings never contain the separator `'_'`. -/
theorem natStr_no_underscore (n : Nat) : '_' ∉ natStr n := by
  intro h
  rcases mem_natDigitsAux h with ⟨m, hm, hc⟩
  exact digitChar_ne_underscore m hm hc.symm

/-- Splitting at the first `'_'` is unambiguous when the prefixes are
    underscore-free. -/
theorem sep_inj : ∀ (a b x y : List Char), '_' ∉ a → '_' ∉ b →
    a ++ '_' :: x = b ++ '_' :: y → a = b ∧ x = y := by
  intro a
  induction a with
  | nil =>
    intro b x y _ hb h
    cases b with
    | nil =>
      simp at h
      exact ⟨rfl, h⟩
    | cons d b =>
      simp at h
      exact absurd (h.1 ▸ List.mem_cons_self d b) hb
  | cons c a ih =>
    intro b x y ha hb h
    cases b with
    | nil =>
      simp at h
      exact absurd (h.1 ▸ List.mem_cons_self c a) ha
    | cons d b =>
      simp at h
      obtain ⟨rfl, h2⟩ := h
      have ha' : '_' ∉ a := fun hm => ha (List.mem_cons_of_mem _ hm)
      have hb' : '_' ∉ b := fun hm => hb (List.mem_cons_of_mem _ hm)
      obtain ⟨rfl, hxy⟩ := ih b x y ha' hb' h2
      exact ⟨rfl, hxy⟩

/-- Python's `random.randint(a, b)`, driven by a raw random value `r`. -/
def randint (a b r : Nat) : Nat := a + r % (b - a + 1)

/-- Scratch-file path chosen by `process_file` for one shard:
    `f"{os.getpid()}_{random.randint(1000, 9999)}_{filename}.txt"`
    (relative to the run's temporary directory). -/
def scratchPath (pid rsrc : Nat) (filename : Path) : Path :=
  natStr pid ++ '_' :: (natStr (randint 1000 9999 rsrc) ++ '_' ::
    (filename ++ (".txt".toList)))

/-- Scratch paths determine the shard filename: distinct filenames can
    never collide, whatever the pids and random values are. -/
theorem scratchPath_filename_eq {p1 r1 p2 r2 : Nat} {f1 f2 : Path}
    (h : scratchPath p1 r1 f1 = scratchPath p2 r2 f2) : f1 = f2 := by
  unfold scratchPath at h
  obtain ⟨-, h2⟩ :=
    sep_inj _ _ _ _ (natStr_no_underscore p1) (natStr_no_underscore p2) h
  obtain ⟨-, h3⟩ :=
    sep_inj _ _ _ _ (natStr_no_underscore (randint 1000 9999 r1))
      (natStr_no_underscore (randint 1000 9999 r2)) h2
  exact List.append_cancel_right h3

/-- Observable behaviour of decompressing one shard, as seen by
    `process_file`'s read loop: full decoded text, an exception at
    `lzma.open` time (before the scratch file is created), or an
    exception after `written` text already reached the scratch file. -/
inductive ShardData where
  | ok (text : List Char)
  | errAtOpen (reason : String)
  | errMid (written : List Char) (reason : String)
deriving DecidableEq

/-- True exactly for shards that decode completely. -/
def ShardData.isOk : ShardData → Bool
  | .ok _ => true
  | _ => false

/-- Fixed read-granularity of the decode loop: 1 MiB of text. -/
def chunkSize : Nat := 1024 * 1024

/-- Body of the `while chunk:` loop of `process_file`, with an explicit
    fuel bound (one unit per iteration; the loop strictly shortens the
    stream whenever it runs, so `s.length + 1` units always suffice):
    repeatedly read up to `c` characters, append them to the scratch
    file, and fold their distinct characters into the running set.
    `read(0)` returns the empty string in Python, so with `c = 0` the
    loop body never runs. -/
def readLoopF : Nat → Nat → List Char → List Char → Finset Char →
    List Char × Finset Char
  | 0, _, _, written, chars => (written, chars)
  | fuel + 1, c, s, written, chars =>
    if s = [] ∨ c = 0 then (written, chars)
    else readLoopF fuel c (s.drop c) (written ++ s.take c)
      (chars ∪ (s.take c).toFinset)

/-- The `while chunk:` loop of `process_file` on stream `s`. -/
def readLoop (c : Nat) (s written : List Char) (chars : Finset Char) :
    List Char × Finset Char :=
  readLoopF (s.length + 1) c s written chars

theorem readLoopF_spec {c : Nat} (hc : 0 < c) :
    ∀ (fuel : Nat) (s written : List Char) (chars : Finset Char),
      s.length < fuel →
      readLoopF fuel c s written chars = (written ++ s, chars ∪ s.toFinset) := by
  intro fuel
  induction fuel with
  | zero => intro s written chars hlen; omega
  | succ fuel ih =>
    intro s written chars hlen
    by_cases hs : s = []
    · subst hs
      simp [readLoopF]
    · have hcond : ¬(s = [] ∨ c = 0) := by
        push_neg
        exact ⟨hs, Nat.pos_iff_ne_zero.mp hc⟩
      rw [readLoopF, if_neg hcond]
      have hpos : 0 < s.length := List.length_pos.mpr hs
      have hlen' : (s.drop c).length < fuel := by
        simp only [List.length_drop]
        omega
      rw [ih _ _ _ hlen']
      rw [List.append_assoc, List.take_append_drop]
      rw [Finset.union_assoc, ← List.toFinset_append, List.take_append_drop]

/-- Chunked reading writes the whole stream verbatim, in order, and
    accumulates exactly its set of distinct characters, for every
    positive chunk size. -/
theorem readLoop_spec {c : Nat} (hc : 0 < c) :
    ∀ (s written : List Char) (chars : Finset Char),
      readLoop c s written chars = (written ++ s, chars ∪ s.toFinset) := by
  intro s written chars
  exact readLoopF_spec hc (s.length + 1) s written chars (by omega)

/-- One worker's task (`process_file` in the source): stream-decode one
    shard into a freshly named scratch file, accumulating its character
    set.  The returned pair is Python's `(temp_output, chars)` on
    success and `(None, set())` on any decode or I/O error; the
    error branches mirror the `except` clause, which logs the reason but
    leaves any partially written scratch file in place. -/
def process_file (pid rsrc : Nat) (filename : Path) (d : ShardData)
    (sc : Scratch) : Scratch × (Option Path × Finset Char) :=
  let temp_output := scratchPath pid rsrc filename
  match d with
  | .ok text =>
    let r := readLoop chunkSize text [] ∅
    (sc.set temp_output r.1, (some temp_output, r.2))
  | .errAtOpen _ => (sc, (none, ∅))
  | .errMid written _ => (sc.set temp_output written, (none, ∅))

theorem chunkSize_pos : 0 < chunkSize := by
  decide

theorem process_file_ok (pid rsrc : Nat) (filename : Path) (t : List Char)
    (sc : Scratch) :
    process_file pid rsrc filename (.ok t) sc =
      (sc.set (scratchPath pid rsrc filename) t,
       (some (scratchPath pid rsrc filename), t.toFinset)) := by
  simp [process_file, readLoop_spec chunkSize_pos]

/-- The result component of `process_file` does not depend on the
    scratch directory's prior contents. -/
def shardOutcome (data : Path → ShardData) (tape : Nat → Nat × Nat)
    (i : Nat) (f : Path) : Option Path × Finset Char :=
  match data f with
  | .ok t => (some (scratchPath (tape i).1 (tape i).2 f), t.toFinset)
  | _ => (none, ∅)

/-- Worker phase of `process_files_in_parallel`: the pool runs
    `process_file` on every task and `executor.map` hands results back
    in submission order; task `i` draws `(pid, raw random)` from the
    tape at index `i`. -/
def workerLoop (data : Path → ShardData) (tape : Nat → Nat × Nat) :
    Nat → List Path → Scratch → Scratch × List (Option Path × Finset Char)
  | _, [], sc => (sc, [])
  | i, f :: fs, sc =>
    let pr := process_file (tape i).1 (tape i).2 f (data f) sc
    let rest := workerLoop data tape (i + 1) fs pr.1
    (rest.1, pr.2 :: rest.2)

theorem workerLoop_results (data : Path → ShardData) (tape : Nat → Nat × Nat) :
    ∀ (fs : List Path) (i : Nat) (sc : Scratch),
      (workerLoop data tape i fs sc).2 =
        (List.enumFrom i fs).map (fun jf => shardOutcome data tape jf.1 jf.2) := by
  intro fs
  induction fs with
  | nil => intro i sc; rfl
  | cons f fs ih =>
    intro i sc
    simp only [workerLoop, List.enumFrom, List.map_cons]
    refine congrArg₂ _ ?_ (ih _ _)
    cases hd : data f with
    | ok t => simp [process_file, shardOutcome, hd, readLoop_spec chunkSize_pos]
    | errAtOpen r => simp [process_file, shardOutcome, hd]
    | errMid w r => simp [process_file, shardOutcome, hd]

theorem workerLoop_mono (data : Path → ShardData) (tape : Nat → Nat × Nat) :
    ∀ (fs : List Path) (i : Nat) (sc : Scratch) (q : Path),
      sc q ≠ none → (workerLoop data tape i fs sc).1 q ≠ none := by
  intro fs
  induction fs with
  | nil => intro i sc q h; exact h
  | cons f fs ih =>
    intro i sc q h
    simp only [workerLoop]
    refine ih _ _ _ ?_
    cases hd : data f with
    | ok t =>
      simp only [process_file, hd]
      by_cases hq : q = scratchPath (tape i).1 (tape i).2 f
      · subst hq; simp [Scratch.set]
      · rw [Scratch.set_other _ _ _ _ hq]; exact h
    | errAtOpen r => simpa [process_file, hd] using h
    | errMid w r =>
      simp only [process_file, hd]
      by_cases hq : q = scratchPath (tape i).1 (tape i).2 f
      · subst hq; simp [Scratch.set]
      · rw [Scratch.set_other _ _ _ _ hq]; exact h

theorem snd_mem_of_mem_enumFrom :
    ∀ {α : Type} {fs : List α} {i : Nat} {jf : Nat × α},
      jf ∈ List.enumFrom i fs → jf.2 ∈ fs := by
  intro α fs
  induction fs with
  | nil => intro i jf h; simp [List.enumFrom] at h
  | cons f fs ih =>
    intro i jf h
    simp only [List.enumFrom, List.mem_cons] at h
    rcases h with h | h
    · subst h; exact List.mem_cons_self _ _
    · exact List.mem_cons_of_mem _ (ih h)

/-- Every scratch path announced in a success result exists in the
    final scratch directory (files are only ever created, never removed,
    during the worker phase). -/
theorem workerLoop_exists (data : Path → ShardData) (tape : Nat → Nat × Nat) :
    ∀ (fs : List Path) (i : Nat) (sc : Scratch) (jf : Nat × Path),
      jf ∈ List.enumFrom i fs → (data jf.2).isOk = true →
      (workerLoop data tape i fs sc).1
        (scratchPath (tape jf.1).1 (tape jf.1).2 jf.2) ≠ none := by
  intro fs
  induction fs with
  | nil => intro i sc jf h; simp [List.enumFrom] at h
  | cons f fs ih =>
    intro i sc jf hmem hok
    simp only [List.enumFrom, List.mem_cons] at hmem
    rcases hmem with hmem | hmem
    · subst hmem
      simp only [workerLoop]
      refine workerLoop_mono data tape _ _ _ _ ?_
      cases hd : data f with
      | ok t => simp [process_file, hd, Scratch.set]
      | errAtOpen r => simp [ShardData.isOk, hd] at hok
      | errMid w r => simp [ShardData.isOk, hd] at hok
    · simp only [workerLoop]
      exact ih _ _ _ hmem hok

/-- The worker phase leaves untouched every path it was not told to
    write: paths other than the tasks' own scratch paths keep their
    prior contents. -/
theorem workerLoop_frame (data : Path → ShardData) (tape : Nat → Nat × Nat) :
    ∀ (fs : List Path) (i : Nat) (sc : Scratch) (q : Path),
      (∀ jf ∈ List.enumFrom i fs,
        q ≠ scratchPath (tape jf.1).1 (tape jf.1).2 jf.2) →
      (workerLoop data tape i fs sc).1 q = sc q := by
  intro fs
  induction fs with
  | nil => intro i sc q _; rfl
  | cons f fs ih =>
    intro i sc q hq
    simp only [workerLoop]
    have hq0 : q ≠ scratchPath (tape i).1 (tape i).2 f :=
      hq (i, f) (by simp [List.enumFrom])
    have hqrest : ∀ jf ∈ List.enumFrom (i + 1) fs,
        q ≠ scratchPath (tape jf.1).1 (tape jf.1).2 jf.2 := by
      intro jf hjf
      exact hq jf (by simp [List.enumFrom, hjf])
    rw [ih _ _ _ hqrest]
    cases hd : data f with
    | ok t => simp [process_file, hd, Scratch.set_other _ _ _ _ hq0]
    | errAtOpen r => simp [process_file, hd]
    | errMid w r => simp [process_file, hd, Scratch.set_other _ _ _ _ hq0]

/-- With pairwise distinct filenames every successful task's scratch
    file still holds that shard's full decoded text when the worker
    phase finishes: no sibling overwrote it. -/
theorem workerLoop_content (data : Path → ShardData) (tape : Nat → Nat × Nat) :
    ∀ (fs : List Path) (i : Nat) (sc : Scratch), fs.Nodup →
      ∀ jf ∈ List.enumFrom i fs, ∀ t, data jf.2 = .ok t →
      (workerLoop data tape i fs sc).1
        (scratchPath (tape jf.1).1 (tape jf.1).2 jf.2) = some t := by
  intro fs
  induction fs with
  | nil => intro i sc _ jf h; simp [List.enumFrom] at h
  | cons f fs ih =>
    intro i sc hnd jf hmem t hok
    have hnd' := hnd
    rw [List.nodup_cons] at hnd'
    simp only [List.enumFrom, List.mem_cons] at hmem
    rcases hmem with hmem | hmem
    · subst hmem
      simp only [workerLoop]
      have hfresh : ∀ jf' ∈ List.enumFrom (i + 1) fs,
          scratchPath (tape i).1 (tape i).2 f ≠
            scratchPath (tape jf'.1).1 (tape jf'.1).2 jf'.2 := by
        intro jf' hjf' heq
        have : f = jf'.2 := scratchPath_filename_eq heq
        exact hnd'.1 (this ▸ snd_mem_of_mem_enumFrom hjf')
      rw [workerLoop_frame data tape fs (i + 1) _ _ hfresh]
      simp [process_file, hok, readLoop_spec chunkSize_pos, Scratch.set]
    · simp only [workerLoop]
      exact ih _ _ hnd'.2 jf hmem t hok

/-- Accumulator of the sequential merge loop in
    `process_files_in_parallel` (lines 64-76 of the source): content of
    the run's output file, the run's global character set, the two
    counters, and the scratch directory the loop reads from. -/
structure MergeState where
  out : List Char
  allChars : Finset Char
  success : Nat
  failure : Nat
  scratch : Scratch

/-- One iteration of the merge loop: for a result `(temp_path, chars)`,
    when `temp_path` is a path and the file exists, copy its contents to
    the output file, optionally union `chars` into the global set, and
    bump the success counter; otherwise bump the failure counter.  The
    scratch file is read, not removed. -/
def mergeStep (collectVocab : Bool) (ms : MergeState)
    (r : Option Path × Finset Char) : MergeState :=
  match r.1 with
  | some p =>
    match ms.scratch p with
    | some content =>
      { ms with
        out := ms.out ++ content
        success := ms.success + 1
        allChars := if collectVocab then ms.allChars ∪ r.2 else ms.allChars }
    | none => { ms with failure := ms.failure + 1 }
  | none => { ms with failure := ms.failure + 1 }

/-- Content contributed to the output file by one result. -/
def chunkOfResult (sc : Scratch) (r : Option Path × Finset Char) :
    List Char :=
  match r.1 with
  | some p =>
    match sc p with
    | some content => content
    | none => []
  | none => []

/-- Whether one result is counted as a success by the merge loop. -/
def resultOk (sc : Scratch) (r : Option Path × Finset Char) : Bool :=
  match r.1 with
  | some p => (sc p).isSome
  | none => false

/-- Total text the merge loop appends to the output file. -/
def appendedOf (sc : Scratch) (rs : List (Option Path × Finset Char)) :
    List Char :=
  rs.flatMap (chunkOfResult sc)

/-- Number of results the merge loop counts as successes. -/
def succCountOf (sc : Scratch) (rs : List (Option Path × Finset Char)) :
    Nat :=
  rs.countP (resultOk sc)

/-- Characters the merge loop unions into the run's global set. -/
def charsOf (sc : Scratch) (rs : List (Option Path × Finset Char)) :
    Finset Char :=
  rs.foldr (fun r acc => (if resultOk sc r then r.2 else ∅) ∪ acc) ∅

theorem mergeStep_scratch (cv : Bool) (ms : MergeState)
    (r : Option Path × Finset Char) :
    (mergeStep cv ms r).scratch = ms.scratch := by
  rcases r with ⟨p?, ch⟩
  cases p? with
  | none => rfl
  | some p =>
    cases hsc : ms.scratch p <;> simp [mergeStep, hsc]

/-- Closed form of the whole merge loop (vocabulary collection on, as in
    both calls made by `main`). -/
theorem foldl_mergeStep :
    ∀ (rs : List (Option Path × Finset Char)) (ms : MergeState),
      rs.foldl (mergeStep true) ms =
        ⟨ms.out ++ appendedOf ms.scratch rs,
         ms.allChars ∪ charsOf ms.scratch rs,
         ms.success + succCountOf ms.scratch rs,
         ms.failure + (rs.length - succCountOf ms.scratch rs),
         ms.scratch⟩ := by
  intro rs
  induction rs with
  | nil =>
    intro ms
    simp [appendedOf, charsOf, succCountOf]
  | cons r rs ih =>
    intro ms
    rcases ms with ⟨o, a, s, f, sc⟩
    have hcnt : List.countP (resultOk sc) rs ≤ rs.length :=
      List.countP_le_length _
    rcases r with ⟨p?, ch⟩
    simp only [List.foldl_cons]
    rw [ih]
    cases p? with
    | none =>
      simp only [mergeStep]
      simp only [appendedOf, succCountOf, charsOf, chunkOfResult, resultOk,
        List.flatMap_cons, List.countP_cons, List.foldr_cons,
        List.length_cons]
      simp only [MergeState.mk.injEq]
      simp [Finset.union_assoc, List.append_assoc]
      try omega
    | some p =>
      cases hsc : sc p with
      | none =>
        simp only [mergeStep, hsc]
        simp only [appendedOf, succCountOf, charsOf, chunkOfResult, resultOk,
          List.flatMap_cons, List.countP_cons, List.foldr_cons,
          List.length_cons, hsc]
        simp only [MergeState.mk.injEq, Option.isSome_none]
        simp [Finset.union_assoc, List.append_assoc]
        try omega
      | some content =>
        simp only [mergeStep, hsc]
        simp only [appendedOf, succCountOf, charsOf, chunkOfResult, resultOk,
          List.flatMap_cons, List.countP_cons, List.foldr_cons,
          List.length_cons, hsc]
        simp only [MergeState.mk.injEq, Option.isSome_some]
        simp [Finset.union_assoc, List.append_assoc]
        try omega

/-- Decoded texts of the shards that decode successfully, in submission
    order. -/
def successTexts (data : Path → ShardData) (files : List Path) :
    List (List Char) :=
  files.filterMap fun f =>
    match data f with
    | .ok t => some t
    | _ => none

/-- Number of shards in the list that decode successfully. -/
def okCount (data : Path → ShardData) (files : List Path) : Nat :=
  files.countP fun f => (data f).isOk

/-- Union of the character sets of a list of texts. -/
def listUnion (ts : List (List Char)) : Finset Char :=
  ts.foldr (fun t a => t.toFinset ∪ a) ∅

theorem listUnion_eq_flatten_toFinset :
    ∀ ts : List (List Char), listUnion ts = ts.flatten.toFinset := by
  intro ts
  induction ts with
  | nil => simp [listUnion]
  | cons t ts ih =>
    simp [listUnion, List.toFinset_append] at *
    rw [ih]

theorem succCount_bridge (data : Path → ShardData) (tape : Nat → Nat × Nat) :
    ∀ (fs : List Path) (i : Nat) (sc : Scratch),
      (∀ jf ∈ List.enumFrom i fs, (data jf.2).isOk = true →
        sc (scratchPath (tape jf.1).1 (tape jf.1).2 jf.2) ≠ none) →
      succCountOf sc
        ((List.enumFrom i fs).map (fun jf => shardOutcome data tape jf.1 jf.2)) =
        okCount data fs := by
  intro fs
  induction fs with
  | nil => intro i sc _; rfl
  | cons f fs ih =>
    intro i sc hex
    have hex0 := hex (i, f) (by simp [List.enumFrom])
    have hexrest : ∀ jf ∈ List.enumFrom (i + 1) fs, (data jf.2).isOk = true →
        sc (scratchPath (tape jf.1).1 (tape jf.1).2 jf.2) ≠ none := by
      intro jf hjf
      exact hex jf (by simp [List.enumFrom, hjf])
    simp only [List.enumFrom, List.map_cons]
    simp only [succCountOf, okCount, List.countP_cons] at *
    rw [ih _ _ hexrest]
    cases hd : data f with
    | ok t =>
      have : sc (scratchPath (tape i).1 (tape i).2 f) ≠ none := by
        apply hex0; simp [hd, ShardData.isOk]
      simp [shardOutcome, resultOk, hd, ShardData.isOk,
        Option.isSome_iff_ne_none.mpr this]
    | errAtOpen r => simp [shardOutcome, resultOk, hd, ShardData.isOk]
    | errMid w r => simp [shardOutcome, resultOk, hd, ShardData.isOk]

theorem charsOf_bridge (data : Path → ShardData) (tape : Nat → Nat × Nat) :
    ∀ (fs : List Path) (i : Nat) (sc : Scratch),
      (∀ jf ∈ List.enumFrom i fs, (data jf.2).isOk = true →
        sc (scratchPath (tape jf.1).1 (tape jf.1).2 jf.2) ≠ none) →
      charsOf sc
        ((List.enumFrom i fs).map (fun jf => shardOutcome data tape jf.1 jf.2)) =
        listUnion (successTexts data fs) := by
  intro fs
  induction fs with
  | nil => intro i sc _; rfl
  | cons f fs ih =>
    intro i sc hex
    have hex0 := hex (i, f) (by simp [List.enumFrom])
    have hexrest : ∀ jf ∈ List.enumFrom (i + 1) fs, (data jf.2).isOk = true →
        sc (scratchPath (tape jf.1).1 (tape jf.1).2 jf.2) ≠ none := by
      intro jf hjf
      exact hex jf (by simp [List.enumFrom, hjf])
    simp only [List.enumFrom, List.map_cons]
    simp only [charsOf, List.foldr_cons] at *
    rw [ih _ _ hexrest]
    cases hd : data f with
    | ok t =>
      have : sc (scratchPath (tape i).1 (tape i).2 f) ≠ none := by
        apply hex0; simp [hd, ShardData.isOk]
      simp [shardOutcome, resultOk, hd, successTexts, listUnion,
        Option.isSome_iff_ne_none.mpr this, List.filterMap_cons]
    | errAtOpen r =>
      simp [shardOutcome, resultOk, hd, successTexts, listUnion,
        List.filterMap_cons]
    | errMid w r =>
      simp [shardOutcome, resultOk, hd, successTexts, listUnion,
        List.filterMap_cons]

theorem appended_bridge (data : Path → ShardData) (tape : Nat → Nat × Nat) :
    ∀ (fs : List Path) (i : Nat) (sc : Scratch),
      (∀ jf ∈ List.enumFrom i fs, ∀ t, data jf.2 = .ok t →
        sc (scratchPath (tape jf.1).1 (tape jf.1).2 jf.2) = some t) →
      appendedOf sc
        ((List.enumFrom i fs).map (fun jf => shardOutcome data tape jf.1 jf.2)) =
        (successTexts data fs).flatten := by
  intro fs
  induction fs with
  | nil => intro i sc _; rfl
  | cons f fs ih =>
    intro i sc hc
    have hc0 := hc (i, f) (by simp [List.enumFrom])
    have hcrest : ∀ jf ∈ List.enumFrom (i + 1) fs, ∀ t, data jf.2 = .ok t →
        sc (scratchPath (tape jf.1).1 (tape jf.1).2 jf.2) = some t := by
      intro jf hjf
      exact hc jf (by simp [List.enumFrom, hjf])
    simp only [List.enumFrom, List.map_cons]
    simp only [appendedOf, List.flatMap_cons] at *
    rw [ih _ _ hcrest]
    cases hd : data f with
    | ok t =>
      have := hc0 t hd
      simp [shardOutcome, chunkOfResult, hd, this, successTexts,
        List.filterMap_cons]
    | errAtOpen r =>
      simp [shardOutcome, chunkOfResult, hd, successTexts,
        List.filterMap_cons]
    | errMid w r =>
      simp [shardOutcome, chunkOfResult, hd, successTexts,
        List.filterMap_cons]

/-- Value of one call to `process_files_in_parallel`: final content of
    the run's output file, the returned character set (`None` when
    `collect_vocab` is false), the two reported counters, and the
    scratch directory as left behind after the `TemporaryDirectory`
    context exits. -/
structure RunResult where
  output : List Char
  vocabOut : Option (Finset Char)
  success : Nat
  failure : Nat
  scratch : Scratch

/-- One run (`process_files_in_parallel` in the source): create a fresh
    temporary directory, have the pool decode every shard into it,
    then sequentially merge the results, in submission order, into the
    output file (opened for append, holding `out0`); finally the
    `with tempfile.TemporaryDirectory()` block removes the whole
    scratch directory. -/
def process_files_in_parallel (data : Path → ShardData)
    (tape : Nat → Nat × Nat) (files : List Path) (out0 : List Char)
    (collectVocab : Bool) : RunResult :=
  let wr := workerLoop data tape 0 files Scratch.empty
  let ms := wr.2.foldl (mergeStep collectVocab) ⟨out0, ∅, 0, 0, wr.1⟩
  ⟨ms.out, if collectVocab then some ms.allChars else none,
   ms.success, ms.failure, Scratch.empty⟩

theorem run_success (data : Path → ShardData) (tape : Nat → Nat × Nat)
    (files : List Path) (out0 : List Char) :
    (process_files_in_parallel data tape files out0 true).success =
      okCount data files := by
  dsimp only [process_files_in_parallel]
  rw [workerLoop_results, foldl_mergeStep]
  simp only
  rw [succCount_bridge data tape files 0 _ (workerLoop_exists data tape files 0 _)]
  simp [succCountOf]

theorem run_failure (data : Path → ShardData) (tape : Nat → Nat × Nat)
    (files : List Path) (out0 : List Char) :
    (process_files_in_parallel data tape files out0 true).failure =
      files.length - okCount data files := by
  dsimp only [process_files_in_parallel]
  rw [workerLoop_results, foldl_mergeStep]
  simp only
  rw [succCount_bridge data tape files 0 _ (workerLoop_exists data tape files 0 _)]
  simp [succCountOf]

theorem run_vocabOut (data : Path → ShardData) (tape : Nat → Nat × Nat)
    (files : List Path) (out0 : List Char) :
    (process_files_in_parallel data tape files out0 true).vocabOut =
      some ((successTexts data files).flatten.toFinset) := by
  dsimp only [process_files_in_parallel]
  rw [workerLoop_results, foldl_mergeStep]
  simp only
  rw [charsOf_bridge data tape files 0 _ (workerLoop_exists data tape files 0 _)]
  simp [listUnion_eq_flatten_toFinset]

theorem run_output (data : Path → ShardData) (tape : Nat → Nat × Nat)
    (files : List Path) (out0 : List Char) (h : files.Nodup) :
    (process_files_in_parallel data tape files out0 true).output =
      out0 ++ (successTexts data files).flatten := by
  dsimp only [process_files_in_parallel]
  rw [workerLoop_results, foldl_mergeStep]
  simp only
  rw [appended_bridge data tape files 0 _
    (fun jf hjf t ht => workerLoop_content data tape files 0 _ h jf hjf t ht)]

theorem run_scratch (data : Path → ShardData) (tape : Nat → Nat × Nat)
    (files : List Path) (out0 : List Char) (cv : Bool) :
    (process_files_in_parallel data tape files out0 cv).scratch =
      Scratch.empty :=
  rfl

/-- Selection loop of Python's `random.sample(population, k)`: draw `k`
    elements without replacement, in the (random) order they are
    selected; `sel` is the random tape choosing which remaining element
    each step takes. -/
def sampleGo (sel : Nat → Nat) : Nat → Nat → List Path → List Path
  | _, 0, _ => []
  | j, k + 1, rem =>
    if rem.isEmpty then []
    else
      let i := sel j % rem.length
      rem.getD i [] :: sampleGo sel (j + 1) k (rem.eraseIdx i)

/-- Python's `random.sample(population, k)`: raises `ValueError`
    (modelled as `none`) when `k` exceeds the population size, and
    otherwise returns `k` distinct elements in selection order. -/
def randomSample (pop : List Path) (k : Nat) (sel : Nat → Nat) :
    Option (List Path) :=
  if k ≤ pop.length then some (sampleGo sel 0 k pop) else none

/-- Index splitting train from validation files, the source's
    `int(total_files * 0.9)`.  On these magnitudes the binary
    floating-point product `n * 0.9` floors to the exact rational
    value, so the expression is embedded as exact integer arithmetic. -/
def splitIndex (n : Nat) : Nat := n * 9 / 10

/-- Number of files to sample from a subset of length `len`, the
    source's `max(1, int(len * sample_rate))` with `sample_rate = 0.01`
    (again embedded as the exact floor). -/
def sampleCount (len : Nat) : Nat := max 1 (len / 100)

/-- Lines 105-113 of `main`: split the discovered list 90/10 by
    position, then draw a 1% sample (at least one file) from each part
    with `random.sample`.  `none` models the uncaught `ValueError`
    escaping `main` when a part is too small to sample from. -/
def splitAndSample (files : List Path) (sT sV : Nat → Nat) :
    Option (List Path × List Path) :=
  let si := splitIndex files.length
  let files_train := files.take si
  let files_val := files.drop si
  match randomSample files_train (sampleCount files_train.length) sT with
  | none => none
  | some a =>
    match randomSample files_val (sampleCount files_val.length) sV with
    | none => none
    | some b => some (a, b)

/-- Directory scan: the files of the source directory whose names end
    in `.xz` (the `os.path.isfile` test is reflected by letting
    `entries` stand for the directory's plain files). -/
def xz_files_in_dir (entries : List Path) : List Path :=
  entries.filter (fun f => (".xz".toList).isSuffixOf f)

/-- Vocabulary artifact: every character of the set on its own line,
    sorted by code point. -/
def vocabRender (u : Finset Char) : List Char :=
  (u.sort (· ≤ ·)).flatMap (fun c => [c, '\n'])

/-- Contents of the three destination files `output_train.txt`,
    `output_val.txt` and `vocab.txt` (`none` means the file does not
    exist). -/
structure PState where
  train : Option (List Char)
  val : Option (List Char)
  vocab : Option (List Char)
deriving DecidableEq

/-- The pipeline driver `main`: abort (leaving every destination file
    untouched) when the source directory is missing, when it holds no
    `.xz` file, or when sampling raises; otherwise truncate both output
    files, run the train and validation extractions, and write the
    vocabulary file when the combined character set is non-empty.
    `listdir` is the source directory's file list (`none`: missing
    directory); the tapes and `sT`/`sV` are the randomness oracles. -/
def main (listdir : Option (List Path)) (data : Path → ShardData)
    (tapeT tapeV : Nat → Nat × Nat) (sT sV : Nat → Nat) (st : PState) :
    PState :=
  match listdir with
  | none => st
  | some entries =>
    let files := xz_files_in_dir entries
    if files.length = 0 then st
    else
      match splitAndSample files sT sV with
      | none => st
      | some fp =>
        let rT := process_files_in_parallel data tapeT fp.1 [] true
        let rV := process_files_in_parallel data tapeV fp.2 [] true
        let u := rT.vocabOut.getD ∅ ∪ rV.vocabOut.getD ∅
        let st2 : PState :=
          { st with train := some rT.output, val := some rV.output }
        if u = ∅ then st2 else { st2 with vocab := some (vocabRender u) }

theorem sampleGo_length (sel : Nat → Nat) :
    ∀ (k : Nat) (j : Nat) (rem : List Path), k ≤ rem.length →
      (sampleGo sel j k rem).length = k := by
  intro k
  induction k with
  | zero => intro j rem _; rfl
  | succ k ih =>
    intro j rem hk
    have hne : rem.isEmpty = false := by
      cases rem with
      | nil => simp at hk
      | cons a l => rfl
    have hi : sel j % rem.length < rem.length := by
      apply Nat.mod_lt
      omega
    simp only [sampleGo, hne, Bool.false_eq_true, if_false, List.length_cons]
    rw [ih _ _ (by rw [List.length_eraseIdx_of_lt hi]; omega)]

theorem sampleGo_subset (sel : Nat → Nat) :
    ∀ (k : Nat) (j : Nat) (rem : List Path) (x : Path),
      x ∈ sampleGo sel j k rem → x ∈ rem := by
  intro k
  induction k with
  | zero => intro j rem x h; simp [sampleGo] at h
  | succ k ih =>
    intro j rem x h
    cases hne : rem.isEmpty with
    | true => simp [sampleGo, hne] at h
    | false =>
      have hlen : 0 < rem.length := by
        cases rem with
        | nil => simp at hne
        | cons a l => simp
      have hi : sel j % rem.length < rem.length := Nat.mod_lt _ hlen
      simp only [sampleGo, hne, Bool.false_eq_true, if_false,
        List.mem_cons] at h
      rcases h with h | h
      · subst h
        rw [List.getD_eq_getElem?_getD, List.getElem?_eq_getElem hi]
        exact List.getElem_mem hi
      · exact (List.eraseIdx_sublist rem _).mem (ih _ _ _ h)

theorem randomSample_ok (pop : List Path) (k : Nat) (sel : Nat → Nat)
    (h : k ≤ pop.length) :
    randomSample pop k sel = some (sampleGo sel 0 k pop) := by
  simp [randomSample, h]

/-- Sampling succeeds, with the requested size, whenever the population
    is large enough. -/
theorem randomSample_spec (pop : List Path) (k : Nat) (sel : Nat → Nat)
    (h : k ≤ pop.length) :
    ∃ l, randomSample pop k sel = some l ∧ l.length = k ∧
      ∀ x ∈ l, x ∈ pop :=
  ⟨sampleGo sel 0 k pop, randomSample_ok pop k sel h,
   sampleGo_length sel k 0 pop h, fun x hx => sampleGo_subset sel k 0 pop x hx⟩

theorem sampleCount_le (len : Nat) (h : 1 ≤ len) : sampleCount len ≤ len := by
  have : len / 100 ≤ len := Nat.div_le_self _ _
  simp only [sampleCount]
  omega

theorem splitIndex_pos {n : Nat} (h : 2 ≤ n) : 1 ≤ splitIndex n := by
  simp only [splitIndex]
  have : 10 ≤ n * 9 := by omega
  omega

theorem splitIndex_lt {n : Nat} (h : 1 ≤ n) : splitIndex n < n := by
  simp only [splitIndex]
  omega

/-- With at least two discovered files both parts are non-empty and
    both samples succeed, yielding non-empty selections drawn from the
    corresponding part of the original list. -/
theorem splitAndSample_spec (files : List Path) (sT sV : Nat → Nat)
    (h : 2 ≤ files.length) :
    ∃ ftr fv, splitAndSample files sT sV = some (ftr, fv) ∧
      ftr ≠ [] ∧ fv ≠ [] ∧
      (∀ x ∈ ftr, x ∈ files) ∧ (∀ x ∈ fv, x ∈ files) := by
  set si := splitIndex files.length with hsi
  have h1 : 1 ≤ si := splitIndex_pos h
  have h2 : si < files.length := splitIndex_lt (by omega)
  have hlt : 1 ≤ (files.take si).length := by
    rw [List.length_take]
    omega
  have hlv : 1 ≤ (files.drop si).length := by
    rw [List.length_drop]
    omega
  obtain ⟨ftr, hftr, hltr, hmtr⟩ :=
    randomSample_spec (files.take si) (sampleCount (files.take si).length) sT
      (sampleCount_le _ hlt)
  obtain ⟨fv, hfv, hlfv, hmfv⟩ :=
    randomSample_spec (files.drop si) (sampleCount (files.drop si).length) sV
      (sampleCount_le _ hlv)
  refine ⟨ftr, fv, ?_, ?_, ?_, ?_, ?_⟩
  · simp only [splitAndSample, ← hsi, hftr, hfv]
  · intro hnil
    rw [hnil] at hltr
    simp [sampleCount] at hltr
    omega
  · intro hnil
    rw [hnil] at hlfv
    simp [sampleCount] at hlfv
    omega
  · exact fun x hx => List.take_subset _ _ (hmtr x hx)
  · exact fun x hx => List.drop_subset _ _ (hmfv x hx)

/-- Shards that fail to decode, counted by the merge loop. -/
def failCount (data : Path → ShardData) (files : List Path) : Nat :=
  files.countP fun f => !(data f).isOk

theorem okCount_add_failCount (data : Path → ShardData) (files : List Path) :
    okCount data files + failCount data files = files.length := by
  induction files with
  | nil => rfl
  | cons f fs ih =>
    simp only [okCount, failCount, List.countP_cons, List.length_cons] at *
    cases h : (data f).isOk <;> simp [h] <;> omega

/-- C9: the shard reader's functional result is independent of the
    chunk size: for every positive chunk size, the read loop writes the
    full decoded text verbatim, in order, and accumulates exactly the
    text's set of distinct characters — the same value as processing
    the text in one piece. -/
theorem claim9_chunk_independence (c : Nat) (s : List Char) (hc : 0 < c) :
    readLoop c s [] ∅ = (s, s.toFinset) := by
  rw [readLoop_spec hc]
  simp

theorem claim9_witness :
    0 < 3 ∧ readLoop 3 ("abcde".toList) [] ∅ =
      ("abcde".toList, ("abcde".toList).toFinset) :=
  ⟨by decide, claim9_chunk_independence 3 ("abcde".toList) (by decide)⟩

/-- C10: distinct shard tasks get distinct scratch-file paths: the path
    `f"{pid}_{randint(1000, 9999)}_{filename}.txt"` determines the
    filename (the pid and the random part are underscore-free, so the
    first two separators parse unambiguously), and the tasks of one run
    carry pairwise distinct filenames. -/
theorem claim10_scratch_path_distinct (pid1 rsrc1 pid2 rsrc2 : Nat)
    (f1 f2 : Path) (h : f1 ≠ f2) :
    scratchPath pid1 rsrc1 f1 ≠ scratchPath pid2 rsrc2 f2 :=
  fun he => h (scratchPath_filename_eq he)

theorem claim10_witness :
    ("a.xz".toList ≠ "6_a.xz".toList) ∧
    scratchPath 12 2456 ("a.xz".toList) ≠ scratchPath 1 1345 ("6_a.xz".toList) :=
  ⟨by decide,
   claim10_scratch_path_distinct 12 2456 1 1345 _ _ (by decide)⟩

/-- C6 (counterexample): the claim says a failing shard's partially
    written scratch file is discarded by the shard reader.  It is not:
    after a mid-stream decode error the `except` branch only logs and
    returns `(None, set())`, and the partial scratch file written so far
    is still present in the scratch directory. -/
theorem claim6_counterexample :
    (process_file 1 2 ("x.xz".toList)
        (.errMid ("ab".toList) "corrupt") Scratch.empty).1
      (scratchPath 1 2 ("x.xz".toList)) = some ("ab".toList) := by
  simp [process_file]

/-- C6 (amended): on a decode or I/O error the shard reader aborts that
    shard only and returns the failure marker `(None, set())` — the
    human-readable reason is logged, not carried in the result — while
    any partially written scratch file stays in the scratch directory
    until the run-level teardown; every other path (in particular every
    sibling shard's scratch file) is untouched. -/
theorem claim6_amended_failure_result (pid rsrc : Nat) (f : Path)
    (w : List Char) (e1 e2 : String) (sc : Scratch) :
    process_file pid rsrc f (.errAtOpen e1) sc = (sc, (none, ∅)) ∧
    (process_file pid rsrc f (.errMid w e2) sc).2 = (none, ∅) ∧
    ∀ q, q ≠ scratchPath pid rsrc f →
      (process_file pid rsrc f (.errMid w e2) sc).1 q = sc q := by
  refine ⟨rfl, rfl, ?_⟩
  intro q hq
  simp [process_file, Scratch.set_other _ _ _ _ hq]

theorem claim6_witness :
    (process_file 1 2 ("x.xz".toList)
        (.errMid ("ab".toList) "corrupt") Scratch.empty).1
      ("sibling".toList) = Scratch.empty ("sibling".toList) :=
  (claim6_amended_failure_result 1 2 ("x.xz".toList) ("ab".toList)
    "open failed" "corrupt" Scratch.empty).2.2 ("sibling".toList) (by decide)

/-- C7 (counterexample): the claim says each successful shard's scratch
    file is deleted right after it is copied into the output stream,
    before the run's teardown.  The merge loop does not delete it: after
    the merge step has consumed the file (its content reached the
    output), the file still exists in the scratch directory. -/
theorem claim7_counterexample :
    (mergeStep true
      ⟨[], ∅, 0, 0, Scratch.empty.set (scratchPath 3 4 ("a.xz".toList))
        ("hi".toList)⟩
      (some (scratchPath 3 4 ("a.xz".toList)),
       ("hi".toList).toFinset)).out = "hi".toList ∧
    (mergeStep true
      ⟨[], ∅, 0, 0, Scratch.empty.set (scratchPath 3 4 ("a.xz".toList))
        ("hi".toList)⟩
      (some (scratchPath 3 4 ("a.xz".toList)),
       ("hi".toList).toFinset)).scratch (scratchPath 3 4 ("a.xz".toList)) =
      some ("hi".toList) := by
  constructor <;> simp [mergeStep]

/-- C7 (amended): the merge loop never removes individual scratch
    files; the whole scratch directory is removed at once when
    `process_files_in_parallel`'s `TemporaryDirectory` context exits,
    so after a run completes (with any mix of successes and failures)
    no scratch files remain. -/
theorem claim7_amended_scratch_teardown (cv : Bool)
    (data : Path → ShardData) (tape : Nat → Nat × Nat)
    (files : List Path) (out0 : List Char) :
    (∀ (ms : MergeState) (r : Option Path × Finset Char),
      (mergeStep cv ms r).scratch = ms.scratch) ∧
    (process_files_in_parallel data tape files out0 cv).scratch =
      Scratch.empty :=
  ⟨fun ms r => mergeStep_scratch cv ms r, rfl⟩

/-- C1: for a fixed shard list the bytes appended to the run's output
    file are exactly the concatenation of the successful shards'
    decoded text in submission order (shard N before shard N+1,
    whatever the completion order was — `executor.map` hands results
    back in submission order and the merge is sequential); the run is a
    pure function of the shard list and the oracles, so re-running it
    reproduces byte-identical output content. -/
theorem claim1_submission_order (data : Path → ShardData)
    (tape : Nat → Nat × Nat) (files : List Path) (out0 : List Char)
    (h : files.Nodup) :
    (process_files_in_parallel data tape files out0 true).output =
      out0 ++ (successTexts data files).flatten :=
  run_output data tape files out0 h

/-- Example decode oracle: `a.xz` holds `"hi"`, `b.xz` holds `"yo"`,
    anything else fails at open. -/
def exData : Path → ShardData := fun f =>
  if f = "a.xz".toList then .ok ("hi".toList)
  else if f = "b.xz".toList then .ok ("yo".toList)
  else .errAtOpen "No such file"

/-- Example pid/randomness tape. -/
def exTape : Nat → Nat × Nat := fun i => (40 + i, 137 * i)

theorem claim1_witness :
    (["a.xz".toList, "b.xz".toList] : List Path).Nodup ∧
    (process_files_in_parallel exData exTape
        ["a.xz".toList, "b.xz".toList] [] true).output =
      [] ++ (successTexts exData ["a.xz".toList, "b.xz".toList]).flatten :=
  ⟨by decide,
   claim1_submission_order exData exTape ["a.xz".toList, "b.xz".toList] []
     (by decide)⟩

/-- C3: a run over N shards of which exactly K fail completes with
    N−K reported successes and K reported failures, its output file
    holds exactly the concatenation of the N−K successful shards'
    decoded text in submission order, and inside the worker every
    decode or I/O error is converted into the failure-valued result
    `(None, set())` instead of propagating. -/
theorem claim3_failure_isolation (data : Path → ShardData)
    (tape : Nat → Nat × Nat) (files : List Path) (out0 : List Char)
    (h : files.Nodup) :
    (process_files_in_parallel data tape files out0 true).success =
      files.length - failCount data files ∧
    (process_files_in_parallel data tape files out0 true).failure =
      failCount data files ∧
    (process_files_in_parallel data tape files out0 true).output =
      out0 ++ (successTexts data files).flatten ∧
    ∀ (pid rsrc : Nat) (f : Path) (sc : Scratch), (data f).isOk = false →
      (process_file pid rsrc f (data f) sc).2 = (none, ∅) := by
  have hsum := okCount_add_failCount data files
  refine ⟨?_, ?_, run_output data tape files out0 h, ?_⟩
  · rw [run_success]
    omega
  · rw [run_failure]
    omega
  · intro pid rsrc f sc hok
    cases hd : data f with
    | ok t => rw [hd] at hok; simp [ShardData.isOk] at hok
    | errAtOpen r => simp [process_file]
    | errMid w r => simp [process_file]

/-- Example decode oracle with one corrupted shard: `b.xz` dies after
    writing a partial chunk. -/
def exData3 : Path → ShardData := fun f =>
  if f = "a.xz".toList then .ok ("hi".toList)
  else if f = "b.xz".toList then .errMid ("pa".toList) "corrupt stream"
  else .ok ("yo".toList)

theorem claim3_witness :
    (["a.xz".toList, "b.xz".toList, "c.xz".toList] : List Path).Nodup ∧
    ((process_files_in_parallel exData3 exTape
        ["a.xz".toList, "b.xz".toList, "c.xz".toList] [] true).success =
      (["a.xz".toList, "b.xz".toList, "c.xz".toList] : List Path).length -
        failCount exData3 ["a.xz".toList, "b.xz".toList, "c.xz".toList] ∧
    (process_files_in_parallel exData3 exTape
        ["a.xz".toList, "b.xz".toList, "c.xz".toList] [] true).failure =
      failCount exData3 ["a.xz".toList, "b.xz".toList, "c.xz".toList] ∧
    (process_files_in_parallel exData3 exTape
        ["a.xz".toList, "b.xz".toList, "c.xz".toList] [] true).output =
      [] ++ (successTexts exData3
        ["a.xz".toList, "b.xz".toList, "c.xz".toList]).flatten ∧
    ∀ (pid rsrc : Nat) (f : Path) (sc : Scratch),
      (exData3 f).isOk = false →
      (process_file pid rsrc f (exData3 f) sc).2 = (none, ∅)) :=
  ⟨by decide,
   claim3_failure_isolation exData3 exTape
     ["a.xz".toList, "b.xz".toList, "c.xz".toList] [] (by decide)⟩

/-- C5: when the source directory is missing, or it contains no `.xz`
    file, `main` reports the structural error and returns before
    touching any destination file: the train output, the validation
    output and the vocabulary file are all left exactly as they were. -/
theorem claim5_structural_abort (listdir : Option (List Path))
    (data : Path → ShardData) (tapeT tapeV : Nat → Nat × Nat)
    (sT sV : Nat → Nat) (st : PState)
    (h : ∀ entries, listdir = some entries → xz_files_in_dir entries = []) :
    main listdir data tapeT tapeV sT sV st = st := by
  cases listdir with
  | none => rfl
  | some entries =>
    have h0 := h entries rfl
    simp [main, h0]

theorem claim5_witness :
    (∀ entries, (some [("notes.txt".toList)] : Option (List Path)) =
      some entries → xz_files_in_dir entries = []) ∧
    main (some [("notes.txt".toList)]) exData exTape exTape
      (fun _ => 0) (fun _ => 0)
      ⟨some ("old train".toList), none, some ("z".toList)⟩ =
      ⟨some ("old train".toList), none, some ("z".toList)⟩ :=
  ⟨fun entries he => by cases he; decide,
   claim5_structural_abort (some [("notes.txt".toList)]) exData exTape exTape
     (fun _ => 0) (fun _ => 0)
     ⟨some ("old train".toList), none, some ("z".toList)⟩
     (fun entries he => by cases he; decide)⟩

/-- C8: a second run of the pipeline on the same inputs (directory
    contents, decode results and randomness) overwrites rather than
    appends — `main` truncates both destination output files before any
    writing, so their contents (hence sizes) after the second run equal
    those after a single run. -/
theorem claim8_idempotent_truncation (listdir : Option (List Path))
    (data : Path → ShardData) (tapeT tapeV : Nat → Nat × Nat)
    (sT sV : Nat → Nat) (st : PState) :
    (main listdir data tapeT tapeV sT sV
        (main listdir data tapeT tapeV sT sV st)).train =
      (main listdir data tapeT tapeV sT sV st).train ∧
    (main listdir data tapeT tapeV sT sV
        (main listdir data tapeT tapeV sT sV st)).val =
      (main listdir data tapeT tapeV sT sV st).val := by
  cases listdir with
  | none => exact ⟨rfl, rfl⟩
  | some entries =>
    by_cases h0 : (xz_files_in_dir entries).length = 0
    · simp [main, h0]
    · cases hs : splitAndSample (xz_files_in_dir entries) sT sV with
      | none => simp [main, h0, hs]
      | some fp => simp [main, h0, hs, apply_ite]

theorem splitAndSample_nil (sT sV : Nat → Nat) :
    splitAndSample ([] : List Path) sT sV = none := rfl

/-- C2 (counterexample): the claim says every pipeline execution writes
    a vocabulary file containing exactly the union of the successful
    shards' characters.  When that union is empty (here: two shards
    that both decode to the empty text, so both runs succeed with empty
    character sets) `main`'s `if train_chars or val_chars:` guard skips
    the write and the vocabulary file keeps its stale prior content
    `"z"` instead of holding the (empty) union. -/
theorem claim2_counterexample :
    (main (some ["a.xz".toList, "b.xz".toList]) (fun _ => .ok [])
        (fun _ => (0, 0)) (fun _ => (0, 0)) (fun _ => 0) (fun _ => 0)
        ⟨none, none, some ['z']⟩).vocab ≠
      some (vocabRender (∅ : Finset Char)) ∧
    (main (some ["a.xz".toList, "b.xz".toList]) (fun _ => .ok [])
        (fun _ => (0, 0)) (fun _ => (0, 0)) (fun _ => 0) (fun _ => 0)
        ⟨none, none, some ['z']⟩).vocab = some ['z'] := by
  have hr : vocabRender (∅ : Finset Char) = [] := by
    simp [vocabRender]
  rw [hr]
  constructor <;> decide

/-- C2 (amended): for every pipeline execution that reaches processing,
    with `U` the union of the distinct characters of the successfully
    decoded shards across the train and validation runs: if `U` is
    non-empty the vocabulary file is written to exactly the characters
    of `U`, one per line, deduplicated and sorted by code point; if `U`
    is empty the vocabulary file is not written and keeps its prior
    content.  Characters appearing only in failed shards are excluded
    (a failed shard contributes the empty set). -/
theorem claim2_amended_vocab (entries : List Path)
    (data : Path → ShardData) (tapeT tapeV : Nat → Nat × Nat)
    (sT sV : Nat → Nat) (st : PState) (ftr fv : List Path)
    (h : splitAndSample (xz_files_in_dir entries) sT sV = some (ftr, fv)) :
    (main (some entries) data tapeT tapeV sT sV st).vocab =
      (if (successTexts data ftr).flatten.toFinset ∪
          (successTexts data fv).flatten.toFinset = ∅
       then st.vocab
       else some (vocabRender
         ((successTexts data ftr).flatten.toFinset ∪
          (successTexts data fv).flatten.toFinset))) := by
  have hne : ¬(xz_files_in_dir entries).length = 0 := by
    intro h0
    rw [List.length_eq_zero.mp h0, splitAndSample_nil] at h
    exact Option.noConfusion h
  simp [main, hne, h, run_vocabOut, apply_ite]
  split <;> simp_all

theorem claim2_witness :
    splitAndSample (xz_files_in_dir ["a.xz".toList, "b.xz".toList])
      (fun _ => 0) (fun _ => 0) = some (["a.xz".toList], ["b.xz".toList]) ∧
    (main (some ["a.xz".toList, "b.xz".toList]) exData exTape exTape
        (fun _ => 0) (fun _ => 0) ⟨none, none, none⟩).vocab =
      (if (successTexts exData ["a.xz".toList]).flatten.toFinset ∪
          (successTexts exData ["b.xz".toList]).flatten.toFinset = ∅
       then (⟨none, none, none⟩ : PState).vocab
       else some (vocabRender
         ((successTexts exData ["a.xz".toList]).flatten.toFinset ∪
          (successTexts exData ["b.xz".toList]).flatten.toFinset))) :=
  ⟨by decide,
   claim2_amended_vocab ["a.xz".toList, "b.xz".toList] exData exTape exTape
     (fun _ => 0) (fun _ => 0) ⟨none, none, none⟩
     ["a.xz".toList] ["b.xz".toList] (by decide)⟩

/-- C4 (counterexample): the claim says the split-and-sample step does
    not fail for any non-empty shard list.  With exactly one discovered
    shard the train part `files[:int(1 * 0.9)]` is empty, and
    `random.sample([], max(1, 0))` raises `ValueError` (modelled as
    `none`): the pipeline run fails. -/
theorem claim4_counterexample :
    splitAndSample [("a.xz".toList)] (fun _ => 0) (fun _ => 0) = none := by
  decide

/-- C4 (amended): for every discovered shard list with at least two
    elements the split-and-sample step succeeds and returns two
    subsets, each non-empty, whose elements are drawn from the original
    list — in `random.sample`'s selection order, not necessarily the
    original order; for a single-element list the sampling step raises
    an error (before any output file is touched). -/
theorem claim4_amended_split_sample (files : List Path) (sT sV : Nat → Nat)
    (h : 2 ≤ files.length) :
    ∃ ftr fv, splitAndSample files sT sV = some (ftr, fv) ∧
      ftr ≠ [] ∧ fv ≠ [] ∧
      (∀ x ∈ ftr, x ∈ files) ∧ (∀ x ∈ fv, x ∈ files) :=
  splitAndSample_spec files sT sV h

theorem claim4_witness :
    2 ≤ (["a.xz".toList, "b.xz".toList, "c.xz".toList] : List Path).length ∧
    ∃ ftr fv, splitAndSample ["a.xz".toList, "b.xz".toList, "c.xz".toList]
        (fun _ => 1) (fun _ => 0) = some (ftr, fv) ∧
      ftr ≠ [] ∧ fv ≠ [] ∧
      (∀ x ∈ ftr, x ∈ (["a.xz".toList, "b.xz".toList, "c.xz".toList] :
        List Path)) ∧
      (∀ x ∈ fv, x ∈ (["a.xz".toList, "b.xz".toList, "c.xz".toList] :
        List Path)) :=
  ⟨by decide,
   claim4_amended_split_sample ["a.xz".toList, "b.xz".toList, "c.xz".toList]
     (fun _ => 1) (fun _ => 0) (by decide)⟩

end DataExtract
